import Mathlib

/-!
Verification of the sicas-audit archive traversal and filtering engine.

Shallow embedding of `src/main.rs`. Entry names and patterns are modelled as
lists of characters (`Str`); the archive is modelled as the ordered list of its
entry names, exactly as `ZipArchive::by_index` enumerates them. The directory
flag of a zip entry is derived from its name (trailing `/` or `\`), which is
how the `zip` crate's `ZipFile::is_dir` computes it.
-/

/-- Archive-internal strings (entry names, patterns), as lists of characters. -/
abbrev Str := List Char

/-- The `zip` crate's `ZipFile::is_dir`: the entry name ends in `/` or `\`. -/
def isDir (name : Str) : Bool :=
  match name.getLast? with
  | some c => c = '/' || c = '\\'
  | none => false

/-- The `zip` crate's `ZipFile::is_file`: negation of `is_dir`. -/
def isFile (name : Str) : Bool :=
  !(isDir name)

/-- Rust's `u8::to_ascii_lowercase`, at the character level: ASCII uppercase
letters map to the corresponding lowercase letter, all other characters are
unchanged. -/
def toAsciiLower (c : Char) : Char :=
  match c with
  | 'A' => 'a'
  | 'B' => 'b'
  | 'C' => 'c'
  | 'D' => 'd'
  | 'E' => 'e'
  | 'F' => 'f'
  | 'G' => 'g'
  | 'H' => 'h'
  | 'I' => 'i'
  | 'J' => 'j'
  | 'K' => 'k'
  | 'L' => 'l'
  | 'M' => 'm'
  | 'N' => 'n'
  | 'O' => 'o'
  | 'P' => 'p'
  | 'Q' => 'q'
  | 'R' => 'r'
  | 'S' => 's'
  | 'T' => 't'
  | 'U' => 'u'
  | 'V' => 'v'
  | 'W' => 'w'
  | 'X' => 'x'
  | 'Y' => 'y'
  | 'Z' => 'z'
  | other => other

/-- Rust's `str::eq_ignore_ascii_case`: equal after ASCII-lowercasing both
sides (same length, character-wise ASCII case-insensitive equality). -/
def eq_ignore_ascii_case (a b : Str) : Bool :=
  a.map toAsciiLower == b.map toAsciiLower

/-- The suffix of `l` starting at the last occurrence of `sep`
(`str::rfind` followed by slicing from the found index), `none` when `sep`
does not occur. -/
def afterLast (sep : Char) : Str → Option Str
  | [] => none
  | c :: cs =>
    match afterLast sep cs with
    | some s => some s
    | none => if c = sep then some (c :: cs) else none

/-- `get_file_extension` from `src/main.rs`: the substring from the last `.`
to the end, kept only when every character after that `.` is ASCII
alphanumeric, otherwise the empty string. -/
def get_file_extension (file_path : Str) : Str :=
  match afterLast '.' file_path with
  | some ext => if (ext.drop 1).all Char.isAlphanum then ext else []
  | none => []

/-- Splitting a string at every occurrence of a separator character
(the `/`-splitting underlying `std::path::Path` components). -/
def splitOnChar (sep : Char) : Str → List Str
  | [] => [[]]
  | c :: cs =>
    if c = sep then [] :: splitOnChar sep cs
    else
      match splitOnChar sep cs with
      | [] => [[c]]
      | s :: ss => (c :: s) :: ss

/-- `get_file_name` from `src/main.rs`, i.e. Rust's `Path::file_name` on a
`/`-separated path: the last path component after dropping empty and `.`
components, and `none` when that component is `..` (or there is none). -/
def get_file_name (file_path : Str) : Option Str :=
  match ((splitOnChar '/' file_path).filter
      (fun s => !(s == []) && !(s == ['.']))).getLast? with
  | some s => if s == ['.', '.'] then none else some s
  | none => none

/-- Rust's `str::starts_with` with a string pattern. -/
def strStartsWith (s pat : Str) : Bool :=
  pat.isPrefixOf s

/-- Rust's `str::ends_with` with a string pattern. -/
def strEndsWith (s pat : Str) : Bool :=
  pat.isSuffixOf s

/-- Rust's `str::contains` with a string pattern (substring occurrence,
not anchored). -/
def strContains (s pat : Str) : Bool :=
  s.tails.any (fun t => pat.isPrefixOf t)

/-- One iteration of the inner pattern loop of `traverse_archive_file`:
does `pat` cause `continue 'outer` (suppression) for the entry `name`?
Mirrors lines 143-158 of `src/main.rs`, including the `is_dir() || ends_with('/')
&& contains(..)` grouping (Rust `&&` binds tighter than `||`). -/
def ignoreHit (pat name : Str) : Bool :=
  if isDir name || (strEndsWith pat ['/'] && strContains name pat) then true
  else if isFile name then
    if strStartsWith pat ['.'] then
      eq_ignore_ascii_case (get_file_extension name) pat
    else
      strStartsWith ((get_file_name name).getD []) pat
  else false

/-- The inner `for ignored_file in &ignored_files` loop: the entry is
suppressed as soon as some pattern hits (`continue 'outer`), otherwise the
remaining patterns are tried. -/
def scanIgnored (name : Str) : List Str → Bool
  | [] => false
  | pat :: rest => if ignoreHit pat name then true else scanIgnored name rest

/-- `traverse_archive_file` from `src/main.rs`, over the archive's entry
names in their native enumeration order: entries for which no ignore pattern
hits are pushed, in order. -/
def traverse_archive_file (entries : List Str) (ignored_files : List Str) : List Str :=
  match entries with
  | [] => []
  | name :: rest =>
    if scanIgnored name ignored_files then traverse_archive_file rest ignored_files
    else name :: traverse_archive_file rest ignored_files

/-- Rust's `str::split(", ")` as used on the `AUDIT.IGNORED_FILES`
configuration value: split at each non-overlapping occurrence of
comma-space, leftmost first. Always returns at least one piece. -/
def splitCommaSpace : Str → List Str
  | [] => [[]]
  | ',' :: ' ' :: rest => [] :: splitCommaSpace rest
  | c :: rest =>
    match splitCommaSpace rest with
    | [] => [[c]]
    | s :: ss => (c :: s) :: ss

/-- Lines 79-80 of `src/main.rs`: the IgnoreSpec is the comma-space split of
the `AUDIT.IGNORED_FILES` configuration value, which defaults to the empty
string when the key is absent. -/
def ignoredFilesOf (cfg : Option Str) : List Str :=
  splitCommaSpace (cfg.getD [])

/-- Stated from the spec's words (claim C4): the extension is the substring
starting at the last `.` of the name when every character after that `.` is
ASCII alphanumeric, and the empty string otherwise. -/
def specExtension (name : Str) : Str :=
  if '.' ∈ name then
    if ((name.reverse.takeWhile (fun c => !(c == '.'))).reverse).all Char.isAlphanum then
      '.' :: (name.reverse.takeWhile (fun c => !(c == '.'))).reverse
    else []
  else []

/-- Stated from the spec's words (claim C5): the base name is the final path
segment, i.e. the portion after the last `/`, or the whole name when no `/`
is present. -/
def specBaseName (name : Str) : Str :=
  (name.reverse.takeWhile (fun c => !(c == '/'))).reverse


/-- An entry stored in the archive container: its exact name, whether it is a
directory marker, and its stored text content (spec data model, section 3). -/
structure ZipEntry where
  name : Str
  isDirectory : Bool
  content : Str
deriving DecidableEq

/-- Error kinds of the archive reader (spec, section 7). -/
inductive ArchiveError where
  | EntryNotFound
  | NotUtf8
deriving DecidableEq

/-- Modelled from the spec: the container lookup performed by
`ZipArchive::by_name` / `read_to_string` lives in the `zip` crate, not under
`src`. Per the spec (section 4.1 and the section 8 scenario), `read_entry`
returns the stored text of the entry with exactly the requested name and
fails with `EntryNotFound` when no such entry exists; directory markers have
no readable content in this model, so looking one up also fails with
`EntryNotFound`. -/
def read_entry (entries : List ZipEntry) (name : Str) : Except ArchiveError Str :=
  match entries.find? (fun e => e.name == name) with
  | some e =>
    if e.isDirectory then Except.error ArchiveError.EntryNotFound
    else Except.ok e.content
  | none => Except.error ArchiveError.EntryNotFound

/-- The program state visible to one command invocation: the archive
container on disk (its ordered entries). -/
structure AppState where
  jarEntries : List ZipEntry
deriving DecidableEq

/-- `retrieve_archive_file_contents` from `src/main.rs`: open the archive and
read the named entry (the lookup itself is the spec-modelled `read_entry`). -/
def retrieve_archive_file_contents (st : AppState) (archive_file_name : Str) :
    Except ArchiveError Str :=
  read_entry st.jarEntries archive_file_name

/-- Observable outcome of the `Edit` command arm. -/
inductive EditOutcome where
  | failed (e : ArchiveError)
  | noChanges
  | updating
deriving DecidableEq

/-- The `Commands::Edit` arm of `main` (lines 86-99 of `src/main.rs`): read
the entry, hand it to the external editor collaborator, report "no changes"
when the result is identical, otherwise only log an update message. No
branch writes to the archive, so the state is returned unchanged. -/
def runEdit (st : AppState) (editor : Str → Str) (file : Str) :
    AppState × EditOutcome :=
  match retrieve_archive_file_contents st file with
  | Except.error e => (st, EditOutcome.failed e)
  | Except.ok file_contents =>
    if file_contents == editor file_contents then (st, EditOutcome.noChanges)
    else (st, EditOutcome.updating)

/-- The `Commands::Delete` arm of `main` (lines 100-102 of `src/main.rs`):
only announces the intent, returning the announced file name; the archive is
untouched. -/
def runDelete (st : AppState) (file : Str) : AppState × Str :=
  (st, file)

/-! ## Helper lemmas -/

theorem toAsciiLower_dot (c : Char) (h : toAsciiLower c = '.') : c = '.' := by
  unfold toAsciiLower at h
  split at h <;> simp_all

theorem isAlphanum_toAsciiLower (c : Char) :
    (toAsciiLower c).isAlphanum = c.isAlphanum := by
  unfold toAsciiLower
  split <;> simp_all

theorem alnum_ne_dot (c : Char) (h : c.isAlphanum = true) : c ≠ '.' := by
  intro hc
  subst hc
  simp at h

theorem alnum_of_map_toAsciiLower_eq (cs ds : Str)
    (hmap : cs.map toAsciiLower = ds.map toAsciiLower)
    (hall : ds.all Char.isAlphanum = true) :
    cs.all Char.isAlphanum = true := by
  induction cs generalizing ds with
  | nil => simp
  | cons c cs ih =>
    cases ds with
    | nil => simp at hmap
    | cons d ds =>
      simp only [List.map_cons, List.cons.injEq] at hmap
      simp only [List.all_cons, Bool.and_eq_true] at hall ⊢
      refine ⟨?_, ih ds hmap.2 hall.2⟩
      have : (toAsciiLower c).isAlphanum = (toAsciiLower d).isAlphanum := by
        rw [hmap.1]
      rw [isAlphanum_toAsciiLower, isAlphanum_toAsciiLower] at this
      rw [this, hall.1]

theorem not_dot_mem_of_alnum (cs : Str) (h : cs.all Char.isAlphanum = true) :
    '.' ∉ cs := by
  intro hmem
  rw [List.all_eq_true] at h
  exact alnum_ne_dot '.' (h '.' hmem) rfl

theorem scanIgnored_of_mem (spec : List Str) (pat name : Str)
    (hmem : pat ∈ spec) (hhit : ignoreHit pat name = true) :
    scanIgnored name spec = true := by
  induction spec with
  | nil => simp at hmem
  | cons p rest ih =>
    rcases List.mem_cons.mp hmem with h | h
    · subst h
      simp [scanIgnored, hhit]
    · unfold scanIgnored
      split
      · rfl
      · exact ih h

theorem splitCommaSpace_ne_nil (s : Str) : splitCommaSpace s ≠ [] := by
  unfold splitCommaSpace
  split
  · simp
  · simp
  · split <;> simp

theorem takeWhile_append_all (p : Char → Bool) (l l₂ : Str)
    (h : ∀ x ∈ l, p x = true) :
    (l ++ l₂).takeWhile p = l ++ l₂.takeWhile p := by
  induction l with
  | nil => simp
  | cons c cs ih =>
    have hc : p c = true := h c (List.mem_cons_self c cs)
    simp only [List.cons_append, List.takeWhile_cons, hc, if_true]
    rw [ih (fun x hx => h x (List.mem_cons_of_mem c hx))]

theorem afterLast_eq_none (sep : Char) (l : Str) (h : sep ∉ l) :
    afterLast sep l = none := by
  induction l with
  | nil => rfl
  | cons c cs ih =>
    have hc : c ≠ sep := by
      intro hc; exact h (hc ▸ List.mem_cons_self c cs)
    have hcs : sep ∉ cs := fun hx => h (List.mem_cons_of_mem c hx)
    unfold afterLast
    rw [ih hcs]
    simp [hc]

theorem afterLast_append (sep : Char) (xs ys : Str) (h : sep ∉ ys) :
    afterLast sep (xs ++ sep :: ys) = some (sep :: ys) := by
  induction xs with
  | nil =>
    simp only [List.nil_append]
    unfold afterLast
    rw [afterLast_eq_none sep ys h]
    simp
  | cons c cs ih =>
    simp only [List.cons_append]
    unfold afterLast
    rw [ih]

theorem exists_last_sep (sep : Char) (name : Str) (h : sep ∈ name) :
    ∃ front tail, name = front ++ sep :: tail ∧ sep ∉ tail := by
  induction name with
  | nil => simp at h
  | cons c cs ih =>
    by_cases hcs : sep ∈ cs
    · obtain ⟨f, t, hft, hnot⟩ := ih hcs
      exact ⟨c :: f, t, by rw [hft]; rfl, hnot⟩
    · have hc : c = sep := by
        rcases List.mem_cons.mp h with h1 | h1
        · exact h1.symm
        · exact absurd h1 hcs
      exact ⟨[], cs, by rw [hc]; rfl, hcs⟩

theorem takeWhile_rev_last_seg (sep : Char) (front tail : Str) (h : sep ∉ tail) :
    (((front ++ sep :: tail).reverse.takeWhile (fun c => !(c == sep))).reverse) = tail := by
  have hrev : (front ++ sep :: tail).reverse = tail.reverse ++ sep :: front.reverse := by
    simp
  rw [hrev]
  rw [takeWhile_append_all (fun c => !(c == sep)) tail.reverse (sep :: front.reverse)
    (fun x hx => by
      have : x ∈ tail := List.mem_reverse.mp hx
      have hxs : x ≠ sep := by intro hxx; exact h (hxx ▸ this)
      simp [hxs])]
  have : (sep :: front.reverse).takeWhile (fun c => !(c == sep)) = [] := by
    simp [List.takeWhile_cons]
  rw [this, List.append_nil, List.reverse_reverse]

theorem takeWhile_rev_no_sep (sep : Char) (name : Str) (h : sep ∉ name) :
    ((name.reverse.takeWhile (fun c => !(c == sep))).reverse) = name := by
  have := takeWhile_append_all (fun c => !(c == sep)) name.reverse []
    (fun x hx => by
      have : x ∈ name := List.mem_reverse.mp hx
      have hxs : x ≠ sep := by intro hxx; exact h (hxx ▸ this)
      simp [hxs])
  simp only [List.append_nil, List.takeWhile_nil] at this
  rw [this, List.reverse_reverse]


theorem splitOnChar_ne_nil (sep : Char) (l : Str) : splitOnChar sep l ≠ [] := by
  unfold splitOnChar
  split
  · simp
  · split
    · simp
    · split <;> simp

theorem splitOnChar_no_sep (sep : Char) (l : Str) (h : sep ∉ l) :
    splitOnChar sep l = [l] := by
  induction l with
  | nil => rfl
  | cons c cs ih =>
    have hc : ¬(c = sep) := by
      intro hc; exact h (hc ▸ List.mem_cons_self c cs)
    have hcs : sep ∉ cs := fun hx => h (List.mem_cons_of_mem c hx)
    unfold splitOnChar
    rw [if_neg hc, ih hcs]

theorem splitOnChar_append_sep (sep : Char) (xs ys : Str) :
    splitOnChar sep (xs ++ sep :: ys) = splitOnChar sep xs ++ splitOnChar sep ys := by
  induction xs with
  | nil =>
    simp only [List.nil_append]
    conv =>
      lhs
      unfold splitOnChar
    rw [if_pos rfl]
    rfl
  | cons c cs ih =>
    simp only [List.cons_append]
    by_cases hc : c = sep
    · subst hc
      conv =>
        lhs
        unfold splitOnChar
      conv =>
        rhs
        lhs
        unfold splitOnChar
      rw [if_pos rfl, if_pos rfl, ih]
      rfl
    · obtain ⟨s, ss, hsplit⟩ := List.exists_cons_of_ne_nil (splitOnChar_ne_nil sep cs)
      conv =>
        lhs
        unfold splitOnChar
      conv =>
        rhs
        lhs
        unfold splitOnChar
      rw [if_neg hc, if_neg hc, ih, hsplit]
      simp

theorem keep_pred_true (c : Char) (r : Str) (hcdot : c ≠ '.') :
    (!((c :: r : Str) == []) && !((c :: r : Str) == ['.'])) = true := by
  have h1 : ((c :: r : Str) == []) = false := by
    rw [beq_eq_false_iff_ne]
    simp
  have h2 : ((c :: r : Str) == ['.']) = false := by
    rw [beq_eq_false_iff_ne]
    simp [hcdot]
  rw [h1, h2]
  rfl

theorem get_file_name_eq_base (name : Str) (c : Char) (r : Str)
    (hbase : specBaseName name = c :: r) (hcdot : c ≠ '.') :
    get_file_name name = some (c :: r) := by
  have hne2 : ((c :: r : Str) == ['.', '.']) = false := by
    rw [beq_eq_false_iff_ne]
    intro hc
    rw [List.cons.injEq] at hc
    exact hcdot hc.1
  have key : ((splitOnChar '/' name).filter
      (fun s => !(s == []) && !(s == ['.']))).getLast? = some (c :: r) := by
    by_cases hmem : '/' ∈ name
    · obtain ⟨front, tail, hft, hnot⟩ := exists_last_sep '/' name hmem
      have htail : tail = c :: r := by
        rw [← hbase, hft]
        unfold specBaseName
        exact (takeWhile_rev_last_seg '/' front tail hnot).symm
      rw [hft, splitOnChar_append_sep, splitOnChar_no_sep '/' tail hnot,
        List.filter_append]
      have hfil : List.filter (fun s => !(s == []) && !(s == ['.'])) [tail] = [tail] := by
        rw [htail]
        simp only [List.filter_cons, List.filter_nil]
        rw [keep_pred_true c r hcdot]
        simp
      rw [hfil, htail]
      exact List.getLast?_concat _
    · have hname : name = c :: r := by
        rw [← hbase]
        unfold specBaseName
        exact (takeWhile_rev_no_sep '/' name hmem).symm
      rw [splitOnChar_no_sep '/' name hmem, hname]
      simp only [List.filter_cons, List.filter_nil]
      rw [keep_pred_true c r hcdot]
      simp
  unfold get_file_name
  rw [key]
  simp [hne2]

theorem get_file_extension_decomp (front tail : Str) (h : '.' ∉ tail) :
    get_file_extension (front ++ '.' :: tail) =
      if tail.all Char.isAlphanum then '.' :: tail else [] := by
  unfold get_file_extension
  rw [afterLast_append '.' front tail h]
  simp

theorem get_file_extension_no_dot (name : Str) (h : '.' ∉ name) :
    get_file_extension name = [] := by
  unfold get_file_extension
  rw [afterLast_eq_none '.' name h]

theorem isDir_false_of_not_cond (pat name : Str)
    (h : ¬((isDir name || (strEndsWith pat ['/'] && strContains name pat)) = true)) :
    isDir name = false := by
  simp only [Bool.or_eq_true, not_or, Bool.not_eq_true] at h
  exact h.1

theorem ignoreHit_ext_branch (pat name : Str)
    (hpat : strStartsWith pat ['.'] = true)
    (hext : eq_ignore_ascii_case (get_file_extension name) pat = true) :
    ignoreHit pat name = true := by
  unfold ignoreHit
  split
  · rfl
  · rename_i hcond
    have hdir : isDir name = false := isDir_false_of_not_cond pat name hcond
    have hfl : isFile name = true := by
      unfold isFile
      rw [hdir]
      rfl
    rw [if_pos hfl]
    exact hext

theorem ignoreHit_prefix_branch (pat name : Str)
    (hpat : strStartsWith pat ['.'] = false)
    (hpre : strStartsWith ((get_file_name name).getD []) pat = true) :
    ignoreHit pat name = true := by
  unfold ignoreHit
  split
  · rfl
  · rename_i hcond
    have hdir : isDir name = false := isDir_false_of_not_cond pat name hcond
    have hfl : isFile name = true := by
      unfold isFile
      rw [hdir]
      rfl
    rw [if_pos hfl]
    rw [if_neg (by rw [hpat]; exact Bool.false_ne_true)]
    exact hpre

theorem ignoreHit_dir (pat name : Str) (hdir : isDir name = true) :
    ignoreHit pat name = true := by
  unfold ignoreHit
  simp [hdir]

theorem eq_ignore_of_dot_pattern (v ext : Str)
    (h : eq_ignore_ascii_case v ('.' :: ext) = true) :
    ∃ cs, v = '.' :: cs ∧ cs.map toAsciiLower = ext.map toAsciiLower := by
  unfold eq_ignore_ascii_case at h
  rw [beq_iff_eq] at h
  cases v with
  | nil => simp at h
  | cons c cs =>
    simp only [List.map_cons, List.cons.injEq] at h
    have hc : toAsciiLower c = '.' := by
      rw [h.1]
      decide
    exact ⟨cs, by rw [toAsciiLower_dot c hc], h.2⟩

theorem pattern_dot_of_eq_ignore (rest pat : Str)
    (h : eq_ignore_ascii_case ('.' :: rest) pat = true) :
    ∃ ps, pat = '.' :: ps := by
  unfold eq_ignore_ascii_case at h
  rw [beq_iff_eq] at h
  cases pat with
  | nil => simp at h
  | cons p ps =>
    simp only [List.map_cons, List.cons.injEq] at h
    have hp : toAsciiLower p = '.' := by
      rw [← h.1]
      decide
    exact ⟨ps, by rw [toAsciiLower_dot p hp]⟩

theorem eq_ignore_cons_dot (cs ext : Str)
    (h : cs.map toAsciiLower = ext.map toAsciiLower) :
    eq_ignore_ascii_case ('.' :: cs) ('.' :: ext) = true := by
  unfold eq_ignore_ascii_case
  rw [beq_iff_eq]
  simp only [List.map_cons]
  rw [h]

theorem traverse_eq_filter (entries ignored : List Str) :
    traverse_archive_file entries ignored =
      entries.filter (fun n => !(scanIgnored n ignored)) := by
  induction entries with
  | nil => rfl
  | cons e rest ih =>
    unfold traverse_archive_file
    cases h : scanIgnored e ignored <;> simp [List.filter_cons, h, ih]

/-! ## Claim theorems -/

/-- Claim C1, counterexample: with the IgnoreSpec produced from an empty
configuration value, the archive containing only the file entry `a.txt`
(no directory entries) is NOT returned unfiltered: the empty-string pattern
suppresses the file via the prefix rule. -/
theorem c1_counterexample :
    isDir ['a', '.', 't', 'x', 't'] = false ∧
    traverse_archive_file [['a', '.', 't', 'x', 't']] (ignoredFilesOf none) ≠
      [['a', '.', 't', 'x', 't']] := by
  decide

/-- Claim C1 (amended): for the IgnoreSpec produced from an empty
configuration value (the one-element list containing the empty-string
pattern), every entry is suppressed — files via the prefix rule, because
every base name starts with the empty string, and directories
unconditionally — so listing any archive returns the empty listing. -/
theorem c1_empty_spec_suppresses_all (entries : List Str) :
    traverse_archive_file entries (ignoredFilesOf none) = [] := by
  have hspec : ignoredFilesOf none = [[]] := rfl
  rw [hspec, traverse_eq_filter, List.filter_eq_nil_iff]
  intro name _hmem
  have hhit : ignoreHit [] name = true := by
    cases hdir : isDir name with
    | true => exact ignoreHit_dir [] name hdir
    | false =>
      apply ignoreHit_prefix_branch
      · rfl
      · unfold strStartsWith
        exact List.isPrefixOf_nil_left
  have hscan : scanIgnored name [[]] = true := by
    unfold scanIgnored
    rw [if_pos hhit]
  simp [hscan]

/-- Claim C3: for every entry whose directory flag is set and every
IgnoreSpec the program can construct (the comma-space split of any
configuration value, including the absent/empty one), the filter suppresses
the entry: the split always yields at least one pattern, and the very first
loop iteration hits the `is_dir` disjunct. -/
theorem c3_directories_always_suppressed (cfg : Option Str) (name : Str)
    (hdir : isDir name = true) :
    scanIgnored name (ignoredFilesOf cfg) = true := by
  obtain ⟨p, rest, hcons⟩ :=
    List.exists_cons_of_ne_nil (splitCommaSpace_ne_nil (cfg.getD []))
  have hspec : ignoredFilesOf cfg = p :: rest := hcons
  rw [hspec]
  unfold scanIgnored
  rw [if_pos (ignoreHit_dir p name hdir)]

/-- Claim C3, witness: the directory entry `b/` is suppressed under the
empty-configuration IgnoreSpec. -/
theorem c3_witness :
    isDir ['b', '/'] = true ∧
    scanIgnored ['b', '/'] (ignoredFilesOf none) = true :=
  ⟨by decide, c3_directories_always_suppressed none ['b', '/'] (by decide)⟩

/-- Claim C6: for the archive with entries `a.txt`, `b/`, `b/c.class`,
`.gitignore` in native order and the IgnoreSpec `[.class, b/]`, the filtered
listing is exactly `[a.txt, .gitignore]` in that order. -/
theorem c6_scenario_listing :
    traverse_archive_file
      [['a', '.', 't', 'x', 't'], ['b', '/'],
        ['b', '/', 'c', '.', 'c', 'l', 'a', 's', 's'],
        ['.', 'g', 'i', 't', 'i', 'g', 'n', 'o', 'r', 'e']]
      [['.', 'c', 'l', 'a', 's', 's'], ['b', '/']] =
      [['a', '.', 't', 'x', 't'],
        ['.', 'g', 'i', 't', 'i', 'g', 'n', 'o', 'r', 'e']] := by
  decide

/-- Claim C7: for every archive and IgnoreSpec the filtered listing is the
subsequence of the archive's entries, in native order, consisting of exactly
the entries the filter keeps; order is preserved, and duplicates are kept
with their multiplicity (count 0 for suppressed names, the archive's count
for kept names). -/
theorem c7_filtered_listing_is_kept_subsequence (ignored entries : List Str) :
    List.Sublist (traverse_archive_file entries ignored) entries ∧
    traverse_archive_file entries ignored =
      entries.filter (fun n => !(scanIgnored n ignored)) ∧
    ∀ name : Str, (traverse_archive_file entries ignored).count name =
      if scanIgnored name ignored then 0 else entries.count name := by
  refine ⟨?_, traverse_eq_filter entries ignored, ?_⟩
  · rw [traverse_eq_filter]
    exact List.filter_sublist entries
  · intro name
    rw [traverse_eq_filter]
    by_cases h : scanIgnored name ignored = true
    · rw [if_pos h]
      apply List.count_eq_zero_of_not_mem
      intro hmem
      have hkeep := (List.mem_filter.mp hmem).2
      rw [h] at hkeep
      simp at hkeep
    · have hfalse : scanIgnored name ignored = false := by
        simpa using h
      rw [if_neg h]
      exact List.count_filter (by rw [hfalse]; rfl)

/-- Claim C9: neither the `Delete` command arm nor the `Edit` command arm
(whatever the external editor returns) mutates the archive: on every path
the archive state is returned unchanged. -/
theorem c9_edit_delete_leave_archive_unchanged (st : AppState)
    (editor : Str → Str) (editFile deleteFile : Str) :
    (runEdit st editor editFile).1 = st ∧ (runDelete st deleteFile).1 = st := by
  refine ⟨?_, rfl⟩
  unfold runEdit
  split
  all_goals first
  | rfl
  | (split <;> rfl)

/-- Claim C2: every file entry whose name ends, compared ASCII
case-insensitively, with a pattern of the form `.ext` (a `.` followed by
ASCII alphanumeric characters) present in the IgnoreSpec is suppressed:
the computed extension is exactly that case-varied suffix, and the
extension comparison ignores ASCII case. -/
theorem c2_extension_case_insensitive_suppression (spec : List Str)
    (ext name u v : Str)
    (hmem : ('.' :: ext) ∈ spec)
    (halnum : ext.all Char.isAlphanum = true)
    (hname : name = u ++ v)
    (hcase : eq_ignore_ascii_case v ('.' :: ext) = true) :
    scanIgnored name spec = true := by
  obtain ⟨cs, hv, hmap⟩ := eq_ignore_of_dot_pattern v ext hcase
  have hcsall : cs.all Char.isAlphanum = true :=
    alnum_of_map_toAsciiLower_eq cs ext hmap halnum
  have hnd : '.' ∉ cs := not_dot_mem_of_alnum cs hcsall
  have hextc : get_file_extension name = '.' :: cs := by
    rw [hname, hv, get_file_extension_decomp u cs hnd, if_pos hcsall]
  apply scanIgnored_of_mem spec ('.' :: ext) name hmem
  apply ignoreHit_ext_branch
  · unfold strStartsWith
    simp [List.isPrefixOf_cons₂]
  · rw [hextc]
    exact eq_ignore_cons_dot cs ext hmap

/-- Claim C2, witness: the file entry `report.TXT` is suppressed when the
IgnoreSpec contains `.txt`. -/
theorem c2_witness :
    scanIgnored ['r', 'e', 'p', 'o', 'r', 't', '.', 'T', 'X', 'T']
      [['.', 't', 'x', 't']] = true :=
  c2_extension_case_insensitive_suppression [['.', 't', 'x', 't']]
    ['t', 'x', 't'] ['r', 'e', 'p', 'o', 'r', 't', '.', 'T', 'X', 'T']
    ['r', 'e', 'p', 'o', 'r', 't'] ['.', 'T', 'X', 'T']
    (by decide) (by decide) (by decide) (by decide)

/-- Claim C4: for every entry name, `get_file_extension` computes exactly
what the spec describes — the substring starting at the last `.` of the name
when every character after that `.` is ASCII alphanumeric, and the empty
string otherwise (so `x.tar.gz` yields `.gz`, and a name with no `.` or with
a non-alphanumeric character after the last `.` yields the empty string). -/
theorem c4_get_file_extension_matches_spec (name : Str) :
    get_file_extension name = specExtension name := by
  by_cases hmem : '.' ∈ name
  · obtain ⟨front, tail, hft, hnot⟩ := exists_last_sep '.' name hmem
    have htw : ((name.reverse.takeWhile (fun c => !(c == '.'))).reverse) = tail := by
      rw [hft]
      exact takeWhile_rev_last_seg '.' front tail hnot
    unfold specExtension
    rw [if_pos hmem, htw, hft, get_file_extension_decomp front tail hnot]
  · unfold specExtension
    rw [if_neg hmem]
    exact get_file_extension_no_dot name hmem

/-- Claim C5: every file entry whose base name (final path segment) starts
with a pattern of the IgnoreSpec that does not begin with `.` is suppressed
by the literal, case-sensitive prefix rule. -/
theorem c5_prefix_pattern_suppression (spec : List Str) (pat name : Str)
    (hmem : pat ∈ spec)
    (hnotdot : strStartsWith pat ['.'] = false)
    (_hfile : isDir name = false)
    (hpre : strStartsWith (specBaseName name) pat = true) :
    scanIgnored name spec = true := by
  apply scanIgnored_of_mem spec pat name hmem
  apply ignoreHit_prefix_branch pat name hnotdot
  cases pat with
  | nil =>
    unfold strStartsWith
    exact List.isPrefixOf_nil_left
  | cons c ps =>
    have hc : c ≠ '.' := by
      intro hcc
      subst hcc
      unfold strStartsWith at hnotdot
      simp [List.isPrefixOf_cons₂] at hnotdot
    have hpref : (c :: ps) <+: specBaseName name := by
      unfold strStartsWith at hpre
      exact List.isPrefixOf_iff_prefix.mp hpre
    obtain ⟨r, hr⟩ := hpref
    have hbase : specBaseName name = c :: (ps ++ r) := by
      rw [← hr]
      rfl
    have hfn : get_file_name name = some (c :: (ps ++ r)) :=
      get_file_name_eq_base name c (ps ++ r) hbase hc
    unfold strStartsWith
    rw [hfn]
    simp only [Option.getD_some]
    apply List.isPrefixOf_iff_prefix.mpr
    exact ⟨r, by simp⟩

/-- Claim C5, witness: the file entry `META-INF/MANIFEST.MF` is suppressed
when the IgnoreSpec contains `MANIFEST`. -/
theorem c5_witness :
    scanIgnored
      ['M', 'E', 'T', 'A', '-', 'I', 'N', 'F', '/',
        'M', 'A', 'N', 'I', 'F', 'E', 'S', 'T', '.', 'M', 'F']
      [['M', 'A', 'N', 'I', 'F', 'E', 'S', 'T']] = true :=
  c5_prefix_pattern_suppression [['M', 'A', 'N', 'I', 'F', 'E', 'S', 'T']]
    ['M', 'A', 'N', 'I', 'F', 'E', 'S', 'T']
    ['M', 'E', 'T', 'A', '-', 'I', 'N', 'F', '/',
      'M', 'A', 'N', 'I', 'F', 'E', 'S', 'T', '.', 'M', 'F']
    (by decide) (by decide) (by decide) (by decide)

/-- Claim C8: reading an entry whose name designates a directory marker in
the container fails with `EntryNotFound` — directory markers have no
readable content, so the show and edit paths cannot obtain text for them. -/
theorem c8_read_directory_marker_entry_not_found (st : AppState) (name : Str)
    (e : ZipEntry)
    (hfind : st.jarEntries.find? (fun x => x.name == name) = some e)
    (hdir : e.isDirectory = true) :
    retrieve_archive_file_contents st name =
      Except.error ArchiveError.EntryNotFound := by
  unfold retrieve_archive_file_contents read_entry
  rw [hfind]
  simp [hdir]

/-- Claim C8, witness: reading the directory marker `b/` from an archive
containing it fails with `EntryNotFound`. -/
theorem c8_witness :
    (AppState.mk [ZipEntry.mk ['b', '/'] true []]).jarEntries.find?
        (fun x => x.name == ['b', '/']) = some (ZipEntry.mk ['b', '/'] true []) ∧
    retrieve_archive_file_contents (AppState.mk [ZipEntry.mk ['b', '/'] true []])
      ['b', '/'] = Except.error ArchiveError.EntryNotFound :=
  ⟨by decide,
    c8_read_directory_marker_entry_not_found
      (AppState.mk [ZipEntry.mk ['b', '/'] true []]) ['b', '/']
      (ZipEntry.mk ['b', '/'] true []) (by decide) (by decide)⟩

/-- Claim C10, counterexample: the dotfile `.foo-bar` (base name begins with
`.` and contains no other `.`) has computed extension equal to the empty
string, not to its full base name, and it is NOT suppressed even though the
IgnoreSpec contains exactly `.foo-bar`: the character `-` after the dot is
not ASCII alphanumeric, so the extension rule never fires. -/
theorem c10_counterexample :
    specBaseName ['.', 'f', 'o', 'o', '-', 'b', 'a', 'r'] =
      ['.', 'f', 'o', 'o', '-', 'b', 'a', 'r'] ∧
    isDir ['.', 'f', 'o', 'o', '-', 'b', 'a', 'r'] = false ∧
    get_file_extension ['.', 'f', 'o', 'o', '-', 'b', 'a', 'r'] ≠
      ['.', 'f', 'o', 'o', '-', 'b', 'a', 'r'] ∧
    scanIgnored ['.', 'f', 'o', 'o', '-', 'b', 'a', 'r']
      [['.', 'f', 'o', 'o', '-', 'b', 'a', 'r']] = false := by
  decide

/-- Claim C10 (amended): for every file entry whose base name begins with
`.`, contains no other `.`, and whose characters after the leading dot are
all ASCII alphanumeric (a dotfile such as `.gitignore`), the computed
extension equals the entire base name, so the entry is suppressed by the
extension rule whenever the IgnoreSpec contains a pattern equal, ASCII
case-insensitively, to that full base name. -/
theorem c10_dotfile_extension_suppression (spec : List Str) (pat pre rest : Str)
    (hmem : pat ∈ spec)
    (hpre : pre = [] ∨ strEndsWith pre ['/'] = true)
    (halnum : rest.all Char.isAlphanum = true)
    (hcase : eq_ignore_ascii_case ('.' :: rest) pat = true) :
    get_file_extension (pre ++ '.' :: rest) = specBaseName (pre ++ '.' :: rest) ∧
    scanIgnored (pre ++ '.' :: rest) spec = true := by
  have hnd : '.' ∉ rest := not_dot_mem_of_alnum rest halnum
  have hext : get_file_extension (pre ++ '.' :: rest) = '.' :: rest := by
    rw [get_file_extension_decomp pre rest hnd, if_pos halnum]
  have hsl : '/' ∉ ('.' :: rest) := by
    intro hmem2
    rcases List.mem_cons.mp hmem2 with h | h
    · exact absurd h (by decide)
    · have halnumc := (List.all_eq_true.mp halnum) '/' h
      simp at halnumc
  have hbase : specBaseName (pre ++ '.' :: rest) = '.' :: rest := by
    rcases hpre with h0 | h0
    · subst h0
      unfold specBaseName
      simp only [List.nil_append]
      exact takeWhile_rev_no_sep '/' ('.' :: rest) hsl
    · have hsuf : ['/'] <:+ pre := by
        unfold strEndsWith at h0
        exact List.isSuffixOf_iff_suffix.mp h0
      obtain ⟨q, hq⟩ := hsuf
      unfold specBaseName
      rw [← hq]
      have hassoc : (q ++ ['/']) ++ '.' :: rest = q ++ '/' :: ('.' :: rest) := by
        simp
      rw [hassoc]
      exact takeWhile_rev_last_seg '/' q ('.' :: rest) hsl
  refine ⟨by rw [hext, hbase], ?_⟩
  obtain ⟨ps, hpat⟩ := pattern_dot_of_eq_ignore rest pat hcase
  apply scanIgnored_of_mem spec pat _ hmem
  apply ignoreHit_ext_branch
  · rw [hpat]
    unfold strStartsWith
    simp [List.isPrefixOf_cons₂]
  · rw [hext]
    exact hcase

/-- Claim C10, witness: the dotfile `.gitignore` has its whole name as its
computed extension and is suppressed when the IgnoreSpec contains
`.gitignore`. -/
theorem c10_witness :
    get_file_extension ('.' :: ['g', 'i', 't', 'i', 'g', 'n', 'o', 'r', 'e']) =
      specBaseName ('.' :: ['g', 'i', 't', 'i', 'g', 'n', 'o', 'r', 'e']) ∧
    scanIgnored ('.' :: ['g', 'i', 't', 'i', 'g', 'n', 'o', 'r', 'e'])
      [['.', 'g', 'i', 't', 'i', 'g', 'n', 'o', 'r', 'e']] = true :=
  c10_dotfile_extension_suppression
    [['.', 'g', 'i', 't', 'i', 'g', 'n', 'o', 'r', 'e']]
    ['.', 'g', 'i', 't', 'i', 'g', 'n', 'o', 'r', 'e'] []
    ['g', 'i', 't', 'i', 'g', 'n', 'o', 'r', 'e']
    (by decide) (Or.inl rfl) (by decide) (by decide)
